import Mathlib

/-!
Verification of the Factor-Crowding drawdown / crowding-proxy core.

Shallow embedding of `factor_crowding/analysis/drawdowns.py` and
`factor_crowding/features/crowding.py` over exact rationals.
A time series is a `List ℚ`; a series that may contain missing values
(`NaN` in the source) is a `List (Option ℚ)` with `none` for missing.
-/

namespace FactorCrowding

/-- Embeds `(1+returns).cumprod()` with running accumulator `a`. -/
def cumprodAux (a : ℚ) : List ℚ → List ℚ
  | [] => []
  | x :: xs => (a * x) :: cumprodAux (a * x) xs

/-- Embeds `DrawdownAnalyzer.compute_cumulative_returns`: wealth index `(1+returns).cumprod()`. -/
def compute_cumulative_returns (returns : List ℚ) : List ℚ :=
  cumprodAux 1 (returns.map (fun r => 1 + r))

/-- Expanding maximum continuing from a running maximum `m`. -/
def runningMaxAux (m : ℚ) : List ℚ → List ℚ
  | [] => []
  | x :: xs => max m x :: runningMaxAux (max m x) xs

/-- Embeds `DrawdownAnalyzer.compute_running_max`: `cumulative_returns.expanding().max()`. -/
def compute_running_max : List ℚ → List ℚ
  | [] => []
  | x :: xs => x :: runningMaxAux x xs

/-- Embeds `DrawdownAnalyzer.compute_drawdown`: `(cum_returns - running_max) / running_max`. -/
def compute_drawdown (returns : List ℚ) : List ℚ :=
  let cum := compute_cumulative_returns returns
  List.zipWith (fun c p => (c - p) / p) cum (compute_running_max cum)

theorem cumprodAux_length (a : ℚ) (l : List ℚ) : (cumprodAux a l).length = l.length := by
  induction l generalizing a with
  | nil => rfl
  | cons x xs ih => simp [cumprodAux, ih]

theorem runningMaxAux_length (m : ℚ) (l : List ℚ) : (runningMaxAux m l).length = l.length := by
  induction l generalizing m with
  | nil => rfl
  | cons x xs ih => simp [runningMaxAux, ih]

theorem compute_running_max_length (l : List ℚ) : (compute_running_max l).length = l.length := by
  cases l with
  | nil => rfl
  | cons x xs => simp [compute_running_max, runningMaxAux_length]

theorem compute_cumulative_returns_length (rs : List ℚ) :
    (compute_cumulative_returns rs).length = rs.length := by
  simp [compute_cumulative_returns, cumprodAux_length]

theorem compute_drawdown_length (rs : List ℚ) :
    (compute_drawdown rs).length = rs.length := by
  simp [compute_drawdown, compute_running_max_length, compute_cumulative_returns_length]

theorem cumprodAux_pos (a : ℚ) (l : List ℚ) (ha : 0 < a) (hl : ∀ x ∈ l, 0 < x) :
    ∀ y ∈ cumprodAux a l, 0 < y := by
  induction l generalizing a with
  | nil => intro y hy; simp [cumprodAux] at hy
  | cons x xs ih =>
      intro y hy
      have hx : 0 < x := hl x (by simp)
      have hax : 0 < a * x := mul_pos ha hx
      simp only [cumprodAux, List.mem_cons] at hy
      rcases hy with h | h
      · exact h ▸ hax
      · exact ih (a * x) hax (fun z hz => hl z (by simp [hz])) y h

theorem runningMaxAux_ge (m : ℚ) (l : List ℚ) : ∀ y ∈ runningMaxAux m l, m ≤ y := by
  induction l generalizing m with
  | nil => intro y hy; simp [runningMaxAux] at hy
  | cons x xs ih =>
      intro y hy
      simp only [runningMaxAux, List.mem_cons] at hy
      rcases hy with h | h
      · exact h ▸ le_max_left m x
      · exact le_trans (le_max_left m x) (ih (max m x) y h)

theorem runningMaxAux_getD_ge (l : List ℚ) :
    ∀ (m : ℚ) (t : Nat), t < l.length → l.getD t 0 ≤ (runningMaxAux m l).getD t 0 := by
  induction l with
  | nil => intro m t ht; simp at ht
  | cons x xs ih =>
      intro m t ht
      cases t with
      | zero => simp [runningMaxAux]
      | succ n =>
          have hn : n < xs.length := by simpa using ht
          simpa [runningMaxAux] using ih (max m x) n hn

/-- Every wealth value is bounded by its running peak. -/
theorem cum_le_running_max (l : List ℚ) (t : Nat) (ht : t < l.length) :
    l.getD t 0 ≤ (compute_running_max l).getD t 0 := by
  cases l with
  | nil => simp at ht
  | cons x xs =>
      cases t with
      | zero => simp [compute_running_max]
      | succ n =>
          have hn : n < xs.length := by simpa using ht
          simpa [compute_running_max] using runningMaxAux_getD_ge xs x n hn

/-- If all returns exceed `-1` the wealth index is everywhere positive. -/
theorem cum_pos (rs : List ℚ) (h : ∀ r ∈ rs, (-1 : ℚ) < r) :
    ∀ y ∈ compute_cumulative_returns rs, 0 < y := by
  refine cumprodAux_pos 1 _ one_pos ?_
  intro x hx
  rcases List.mem_map.1 hx with ⟨r, hr, rfl⟩
  have := h r hr
  linarith

/-- If all returns exceed `-1` the running peak is everywhere positive. -/
theorem running_max_pos (l : List ℚ) (hl : ∀ x ∈ l, 0 < x) :
    ∀ y ∈ compute_running_max l, 0 < y := by
  cases l with
  | nil => intro y hy; simp [compute_running_max] at hy
  | cons x xs =>
      intro y hy
      have hx : 0 < x := hl x (by simp)
      simp only [compute_running_max, List.mem_cons] at hy
      rcases hy with h | h
      · exact h ▸ hx
      · exact lt_of_lt_of_le hx (runningMaxAux_ge x xs y h)

/-- Claim C2 fails as stated: with the return `-2` (a loss of 200%) the wealth
index goes negative, the running peak is negative, and the drawdown at the
next step is the positive value `1/2`. -/
theorem drawdown_nonpos_counterexample :
    0 < (compute_drawdown [(-2 : ℚ), 1/2]).getD 1 0 := by
  norm_num [compute_drawdown, compute_cumulative_returns, cumprodAux,
    compute_running_max, runningMaxAux]

/-- C2 (amended): for every return series whose returns all exceed `-1`,
the drawdown series `(wealth - running_peak) / running_peak` is `≤ 0` at every
index, and is `= 0` wherever the wealth equals its running peak. -/
theorem drawdown_nonpos (rs : List ℚ) (hr : ∀ r ∈ rs, (-1 : ℚ) < r)
    (t : Nat) (ht : t < rs.length) :
    (compute_drawdown rs).getD t 0 ≤ 0 ∧
      ((compute_cumulative_returns rs).getD t 0 = (compute_running_max
        (compute_cumulative_returns rs)).getD t 0 →
        (compute_drawdown rs).getD t 0 = 0) := by
  set cum := compute_cumulative_returns rs with hcum
  set peak := compute_running_max cum with hpeak
  have hclen : cum.length = rs.length := compute_cumulative_returns_length rs
  have hplen : peak.length = cum.length := compute_running_max_length cum
  have htc : t < cum.length := by omega
  have htp : t < peak.length := by omega
  have hdd : (compute_drawdown rs).getD t 0 =
      (cum.getD t 0 - peak.getD t 0) / peak.getD t 0 := by
    rw [compute_drawdown]
    have htz : t < (List.zipWith (fun c p => (c - p) / p) cum peak).length := by
      simp [List.length_zipWith]; omega
    rw [List.getD_eq_getElem _ _ htz, List.getElem_zipWith,
      List.getD_eq_getElem _ _ htc, List.getD_eq_getElem _ _ htp]
  have hcpos : 0 < cum.getD t 0 := by
    have := cum_pos rs hr (cum.getD t 0) ?_
    · exact this
    · rw [List.getD_eq_getElem _ _ htc]; exact List.getElem_mem _
  have hppos : 0 < peak.getD t 0 := by
    have hmem : peak.getD t 0 ∈ peak := by
      rw [List.getD_eq_getElem _ _ htp]; exact List.getElem_mem _
    exact running_max_pos cum (fun y hy => cum_pos rs hr y hy) _ hmem
  have hle : cum.getD t 0 ≤ peak.getD t 0 := cum_le_running_max cum t htc
  constructor
  · rw [hdd]
    exact div_nonpos_of_nonpos_of_nonneg (by linarith) (le_of_lt hppos)
  · intro heq
    rw [hdd, heq, sub_self, zero_div]

/-- Concrete instance of the amended C2 invariant. -/
theorem drawdown_nonpos_witness :
    (compute_drawdown [(1 : ℚ)/10, -1/20]).getD 1 0 ≤ 0 ∧
      ((compute_cumulative_returns [(1 : ℚ)/10, -1/20]).getD 1 0 = (compute_running_max
        (compute_cumulative_returns [(1 : ℚ)/10, -1/20])).getD 1 0 →
        (compute_drawdown [(1 : ℚ)/10, -1/20]).getD 1 0 = 0) :=
  drawdown_nonpos [(1 : ℚ)/10, -1/20] (by norm_num) 1 (by norm_num)

/-! ## Episode segmentation (`DrawdownAnalyzer.compute_drawdown_episodes`) -/

/-- Drawdown value at integer position `i` (`drawdown.iloc[i]`). -/
def ddAt (dd : List ℚ) (i : Nat) : ℚ :=
  dd.getD i 0

/-- Index of the first occurrence of the minimum of a list (`numpy argmin`). -/
def argminIdx : List ℚ → Nat
  | [] => 0
  | [_] => 0
  | x :: y :: ys =>
      if (y :: ys).getD (argminIdx (y :: ys)) 0 < x then argminIdx (y :: ys) + 1 else 0

/-- An emitted drawdown episode record.  `last` plays the role of the Python
`end_date` (as an integer position into the series). -/
structure Episode where
  start : Nat
  trough : Nat
  last : Nat
  depthPct : ℚ
  duration : Nat
  startValue : ℚ
  troughValue : ℚ
  deriving DecidableEq, Repr

/-- Closing an episode spanning positions `[s, e]`: trough is the stable argmin
of `drawdown.iloc[s : e+1]`, depth the drawdown there, and the record is kept
only if `abs(depth) >= threshold / 100`. -/
def emitEpisode (dd cum : List ℚ) (θ : ℚ) (s e : Nat) : List Episode :=
  let seg := (dd.drop s).take (e + 1 - s)
  let tr := s + argminIdx seg
  let depth := ddAt dd tr
  if θ / 100 ≤ |depth| then
    [⟨s, tr, e, depth * 100, e - s + 1, cum.getD s 0, cum.getD tr 0⟩]
  else []

/-- One iteration of the segmentation loop body. -/
def episodeStep (dd cum : List ℚ) (θ : ℚ) (st : Option Nat × List Episode) (i : Nat) :
    Option Nat × List Episode :=
  match st.1 with
  | none => if ddAt dd i < 0 then (some i, st.2) else st
  | some s => if ddAt dd i < 0 then st else (none, st.2 ++ emitEpisode dd cum θ s (i - 1))

/-- The segmentation walk over a drawdown series `dd` (with the wealth series
`cum` used for the `start_value`/`trough_value` fields), including the
end-of-series close of a still-open episode. -/
def episodesOfDD (dd cum : List ℚ) (θ : ℚ) : List Episode :=
  let p := (List.range dd.length).foldl (episodeStep dd cum θ) (none, [])
  match p.1 with
  | none => p.2
  | some s => p.2 ++ emitEpisode dd cum θ s (dd.length - 1)

/-- Embeds `DrawdownAnalyzer.compute_drawdown_episodes`. -/
def compute_drawdown_episodes (returns : List ℚ) (θ : ℚ) : List Episode :=
  episodesOfDD (compute_drawdown returns) (compute_cumulative_returns returns) θ

/-- Start of the maximal negative run reaching position `e` (scanning left). -/
def runStartAt (dd : List ℚ) : Nat → Nat
  | 0 => 0
  | e + 1 => if ddAt dd e < 0 then runStartAt dd e else e + 1

/-- The loop's `start_idx` variable after processing positions `< n`. -/
def stateAt (dd : List ℚ) : Nat → Option Nat
  | 0 => none
  | m + 1 => if ddAt dd m < 0 then some (runStartAt dd m) else none

/-- Episodes closed while processing position `t` (nonempty only when a
negative run ends at `t - 1` and `dd[t] ≥ 0`). -/
def closeTerm (dd cum : List ℚ) (θ : ℚ) (t : Nat) : List Episode :=
  if 0 < t ∧ ddAt dd (t - 1) < 0 ∧ ¬ddAt dd t < 0 then
    emitEpisode dd cum θ (runStartAt dd (t - 1)) (t - 1)
  else []

/-- All episodes emitted by the loop while processing positions `< n`. -/
def emittedUpTo (dd cum : List ℚ) (θ : ℚ) : Nat → List Episode
  | 0 => []
  | n + 1 => emittedUpTo dd cum θ n ++ closeTerm dd cum θ n

theorem argminIdx_lt : ∀ l : List ℚ, l ≠ [] → argminIdx l < l.length := by
  intro l
  induction l with
  | nil => simp
  | cons x xs ih =>
      intro _
      cases xs with
      | nil => simp [argminIdx]
      | cons y ys =>
          have h := ih (by simp)
          simp only [argminIdx]
          split
          · simpa using Nat.succ_lt_succ h
          · simp

theorem argminIdx_min : ∀ (l : List ℚ) (j : Nat), j < l.length →
    l.getD (argminIdx l) 0 ≤ l.getD j 0 := by
  intro l
  induction l with
  | nil => intro j hj; simp at hj
  | cons x xs ih =>
      intro j hj
      cases xs with
      | nil =>
          have hj0 : j = 0 := by simpa using hj
          subst hj0
          simp [argminIdx]
      | cons y ys =>
          simp only [argminIdx]
          split
          · rename_i hlt
            cases j with
            | zero => simpa using le_of_lt hlt
            | succ k =>
                have hk : k < (y :: ys).length := by simpa using hj
                simpa using ih k hk
          · rename_i hge
            push_neg at hge
            cases j with
            | zero => simp
            | succ k =>
                have hk : k < (y :: ys).length := by simpa using hj
                simpa using le_trans hge (ih k hk)

theorem argminIdx_first : ∀ (l : List ℚ) (j : Nat), j < argminIdx l →
    l.getD (argminIdx l) 0 < l.getD j 0 := by
  intro l
  induction l with
  | nil => intro j hj; simp [argminIdx] at hj
  | cons x xs ih =>
      intro j hj
      cases xs with
      | nil => simp [argminIdx] at hj
      | cons y ys =>
          simp only [argminIdx] at hj ⊢
          split at hj
          · rename_i hlt
            rw [if_pos hlt]
            cases j with
            | zero => simpa using hlt
            | succ k =>
                have hk : k < argminIdx (y :: ys) := by omega
                simpa using ih k hk
          · omega

theorem runStartAt_le (dd : List ℚ) : ∀ e, runStartAt dd e ≤ e := by
  intro e
  induction e with
  | zero => simp [runStartAt]
  | succ m ih =>
      simp only [runStartAt]
      split
      · omega
      · omega

theorem runStartAt_neg (dd : List ℚ) :
    ∀ e j, runStartAt dd e ≤ j → j < e → ddAt dd j < 0 := by
  intro e
  induction e with
  | zero => intro j _ h2; exact absurd h2 (Nat.not_lt_zero j)
  | succ m ih =>
      intro j h1 h2
      by_cases hm : ddAt dd m < 0
      · rw [runStartAt, if_pos hm] at h1
        rcases Nat.lt_or_ge j m with h | h
        · exact ih j h1 h
        · have : j = m := by omega
          exact this ▸ hm
      · rw [runStartAt, if_neg hm] at h1
        omega

theorem runStartAt_boundary (dd : List ℚ) :
    ∀ e, runStartAt dd e = 0 ∨ ¬ddAt dd (runStartAt dd e - 1) < 0 := by
  intro e
  induction e with
  | zero => left; rfl
  | succ m ih =>
      by_cases hm : ddAt dd m < 0
      · rw [runStartAt, if_pos hm]
        exact ih
      · rw [runStartAt, if_neg hm]
        right
        simpa using hm

theorem runStartAt_eq (dd : List ℚ) :
    ∀ e s, s ≤ e → (s = 0 ∨ ¬ddAt dd (s - 1) < 0) →
      (∀ j, s ≤ j → j < e → ddAt dd j < 0) → runStartAt dd e = s := by
  intro e
  induction e with
  | zero => intro s hs _ _; rw [runStartAt]; omega
  | succ m ih =>
      intro s hs hb hneg
      by_cases hm : ddAt dd m < 0
      · rw [runStartAt, if_pos hm]
        have hsm : s ≤ m := by
          rcases Nat.lt_or_ge s (m + 1) with h | h
          · omega
          · exfalso
            have hsm1 : s = m + 1 := by omega
            rcases hb with h0 | hn
            · omega
            · rw [hsm1] at hn
              simp only [Nat.add_sub_cancel] at hn
              exact hn hm
        exact ih s hsm hb (fun j h1 h2 => hneg j h1 (by omega))
      · rw [runStartAt, if_neg hm]
        rcases Nat.lt_or_ge s (m + 1) with h | h
        · exact absurd (hneg m (by omega) (by omega)) hm
        · omega

/-- The loop invariant: folding the loop body over positions `< n` yields the
declarative state `stateAt` and accumulator `emittedUpTo`. -/
theorem fold_eq (dd cum : List ℚ) (θ : ℚ) :
    ∀ n, (List.range n).foldl (episodeStep dd cum θ) (none, []) =
      (stateAt dd n, emittedUpTo dd cum θ n) := by
  intro n
  induction n with
  | zero => rfl
  | succ m ih =>
      rw [List.range_succ, List.foldl_append, ih]
      simp only [List.foldl_cons, List.foldl_nil]
      cases m with
      | zero =>
          by_cases h0 : ddAt dd 0 < 0 <;>
            simp [episodeStep, stateAt, emittedUpTo, closeTerm, runStartAt, h0]
      | succ k =>
          by_cases h1 : ddAt dd k < 0 <;> by_cases h2 : ddAt dd (k + 1) < 0 <;>
            simp [episodeStep, stateAt, emittedUpTo, closeTerm, runStartAt, h1, h2]

theorem episodesOfDD_eq (dd cum : List ℚ) (θ : ℚ) :
    episodesOfDD dd cum θ =
      emittedUpTo dd cum θ dd.length ++
        (match stateAt dd dd.length with
          | none => []
          | some s => emitEpisode dd cum θ s (dd.length - 1)) := by
  rw [episodesOfDD, fold_eq]
  cases h : stateAt dd dd.length <;> simp

/-- A maximal negative drawdown run `[s, t-1]` closed by `dd[t] ≥ 0`. -/
def isClosedRun (dd : List ℚ) (s t : Nat) : Prop :=
  t < dd.length ∧ s < t ∧ (s = 0 ∨ 0 ≤ ddAt dd (s - 1)) ∧
    (∀ j < t, s ≤ j → ddAt dd j < 0) ∧ 0 ≤ ddAt dd t

/-- A maximal negative drawdown run still open at the end of the series. -/
def isOpenRun (dd : List ℚ) (s : Nat) : Prop :=
  s < dd.length ∧ (s = 0 ∨ 0 ≤ ddAt dd (s - 1)) ∧
    ∀ j < dd.length, s ≤ j → ddAt dd j < 0

theorem mem_emitEpisode_start {dd cum : List ℚ} {θ : ℚ} {s e : Nat} {ep : Episode}
    (h : ep ∈ emitEpisode dd cum θ s e) : ep.start = s := by
  simp only [emitEpisode] at h
  split at h
  · rcases List.mem_singleton.1 h with rfl
    rfl
  · simp at h

theorem filter_closeTerm_nil (dd cum : List ℚ) (θ : ℚ) (t' s : Nat)
    (h : runStartAt dd (t' - 1) ≠ s) :
    (closeTerm dd cum θ t').filter (fun ep => ep.start == s) = [] := by
  unfold closeTerm
  split
  · rw [List.filter_eq_nil_iff]
    intro ep hep
    have := mem_emitEpisode_start hep
    simp [this, h]
  · simp

theorem filter_emittedUpTo_nil (dd cum : List ℚ) (θ : ℚ) (p : Episode → Bool) :
    ∀ n, (∀ t' < n, (closeTerm dd cum θ t').filter p = []) →
      (emittedUpTo dd cum θ n).filter p = [] := by
  intro n
  induction n with
  | zero => intro _; rfl
  | succ m ih =>
      intro h
      rw [emittedUpTo, List.filter_append, ih (fun t' ht' => h t' (by omega)),
        h m (by omega), List.append_nil]

theorem filter_emittedUpTo (dd cum : List ℚ) (θ : ℚ) (p : Episode → Bool) :
    ∀ n t, t < n → (∀ t', t' ≠ t → (closeTerm dd cum θ t').filter p = []) →
      (emittedUpTo dd cum θ n).filter p = (closeTerm dd cum θ t).filter p := by
  intro n
  induction n with
  | zero => intro t ht; omega
  | succ m ih =>
      intro t ht hkill
      rw [emittedUpTo, List.filter_append]
      rcases Nat.lt_or_ge t m with h | h
      · rw [ih t h hkill, hkill m (by omega), List.append_nil]
      · have ht' : t = m := by omega
        subst ht'
        rw [filter_emittedUpTo_nil dd cum θ p t (fun t' ht' => hkill t' (by omega)),
          List.nil_append]

/-- C3: every episode closed by the walk when the drawdown turns `≥ 0` at `t`
after a negative run starting at `s` is recorded with `end = t-1`, trough the
first position attaining the minimum drawdown over `[s, t-1]`, depth the
drawdown at the trough, duration `t - s = end - start + 1`, and it is emitted
iff `|depth| ≥ threshold / 100`. -/
theorem episodes_closed_run (dd cum : List ℚ) (θ : ℚ) (s t : Nat)
    (h : isClosedRun dd s t) :
    ∃ tr, s ≤ tr ∧ tr ≤ t - 1 ∧
      (∀ j, s ≤ j → j ≤ t - 1 → ddAt dd tr ≤ ddAt dd j) ∧
      (∀ j, s ≤ j → j < tr → ddAt dd tr < ddAt dd j) ∧
      (episodesOfDD dd cum θ).filter (fun ep => ep.start == s) =
        (if θ / 100 ≤ |ddAt dd tr| then
          [⟨s, tr, t - 1, ddAt dd tr * 100, t - s, cum.getD s 0, cum.getD tr 0⟩]
        else []) := by
  obtain ⟨htL, hst, hb, hneg, hge⟩ := h
  set seg := (dd.drop s).take (t - s) with hseg
  have hseglen : seg.length = t - s := by
    simp only [hseg, List.length_take, List.length_drop]
    omega
  have hsegne : seg ≠ [] := by
    apply List.ne_nil_of_length_pos
    omega
  have hgetseg : ∀ k, k < t - s → seg.getD k 0 = ddAt dd (s + k) := by
    intro k hk
    rw [hseg, ddAt, List.getD_eq_getElem?_getD, List.getD_eq_getElem?_getD,
      List.getElem?_take_of_lt hk, List.getElem?_drop]
  have ha := argminIdx_lt seg hsegne
  refine ⟨s + argminIdx seg, by omega, by omega, ?_, ?_, ?_⟩
  · intro j h1 h2
    have hk : j - s < t - s := by omega
    have := argminIdx_min seg (j - s) (by omega)
    rw [hgetseg (argminIdx seg) (by omega), hgetseg (j - s) hk] at this
    have hj : s + (j - s) = j := by omega
    rwa [hj] at this
  · intro j h1 h2
    have hk : j - s < argminIdx seg := by omega
    have := argminIdx_first seg (j - s) hk
    rw [hgetseg (argminIdx seg) (by omega), hgetseg (j - s) (by omega)] at this
    have hj : s + (j - s) = j := by omega
    rwa [hj] at this
  · rw [episodesOfDD_eq, List.filter_append]
    have hkill : ∀ t', t' ≠ t →
        (closeTerm dd cum θ t').filter (fun ep => ep.start == s) = [] := by
      intro t' hne
      by_cases hc : 0 < t' ∧ ddAt dd (t' - 1) < 0 ∧ ¬ddAt dd t' < 0
      · apply filter_closeTerm_nil
        intro heq
        obtain ⟨h0, hprev, hnotneg⟩ := hc
        have hrs := runStartAt_le dd (t' - 1)
        rw [heq] at hrs
        rcases Nat.lt_or_ge t' t with hlt | hge'
        · exact hnotneg (hneg t' hlt (by omega))
        · have htt : t < t' := by omega
          rcases Nat.lt_or_ge t (t' - 1) with hlt2 | hge2
          · have := runStartAt_neg dd (t' - 1) t (by omega) hlt2
            exact absurd hge (not_le.2 this)
          · have : t = t' - 1 := by omega
            rw [← this] at hprev
            exact absurd hge (not_le.2 hprev)
      · unfold closeTerm
        rw [if_neg hc]
        rfl
    have hfinal : ((match stateAt dd dd.length with
        | none => ([] : List Episode)
        | some s' => emitEpisode dd cum θ s' (dd.length - 1)) :
          List Episode).filter (fun ep => ep.start == s) = [] := by
      cases hsl : stateAt dd dd.length with
      | none => rfl
      | some s' =>
          cases hL : dd.length with
          | zero => rw [hL] at hsl; exact absurd hsl (by simp [stateAt])
          | succ m =>
              rw [hL] at hsl
              rw [stateAt] at hsl
              by_cases hm : ddAt dd m < 0
              · rw [if_pos hm] at hsl
                have hs' : s' = runStartAt dd m := by
                  simpa using hsl.symm
                rw [List.filter_eq_nil_iff]
                intro ep hep
                have hstart := mem_emitEpisode_start hep
                have hne : runStartAt dd m ≠ s := by
                  intro heq
                  have hrs := runStartAt_le dd m
                  rw [heq] at hrs
                  rcases Nat.lt_or_ge t m with hlt | hge'
                  · have := runStartAt_neg dd m t (by omega) hlt
                    exact absurd hge (not_le.2 this)
                  · have htm : t = m := by omega
                    rw [htm] at hge
                    exact absurd hge (not_le.2 hm)
                simp [hstart, hs', hne]
              · rw [if_neg hm] at hsl
                exact absurd hsl (by simp)
    rw [filter_emittedUpTo dd cum θ _ dd.length t htL hkill, hfinal, List.append_nil]
    have hrseq : runStartAt dd (t - 1) = s := by
      apply runStartAt_eq dd (t - 1) s (by omega)
      · rcases hb with h0 | h1
        · exact Or.inl h0
        · exact Or.inr (not_lt.2 h1)
      · intro j h1 h2
        exact hneg j (by omega) h1
    have hclose : closeTerm dd cum θ t = emitEpisode dd cum θ s (t - 1) := by
      unfold closeTerm
      rw [if_pos ⟨by omega, hneg (t - 1) (by omega) (by omega), not_lt.2 hge⟩, hrseq]
    rw [hclose]
    have h1 : t - 1 + 1 - s = t - s := by omega
    have h2 : t - 1 - s + 1 = t - s := by omega
    unfold emitEpisode
    simp only [h1, h2, ← hseg]
    by_cases hθ : θ / 100 ≤ |ddAt dd (s + argminIdx seg)|
    · rw [if_pos hθ]
      simp [List.filter]
    · rw [if_neg hθ]
      rfl

/-- C5: a drawdown run still open at the end of the series is closed using the
last position as `end`, with trough (first argmin), depth (minimum drawdown over
`[s, len-1]`) and duration `len - s`, and emitted under the same
`|depth| ≥ threshold / 100` rule. -/
theorem episodes_open_run (dd cum : List ℚ) (θ : ℚ) (s : Nat)
    (h : isOpenRun dd s) :
    ∃ tr, s ≤ tr ∧ tr ≤ dd.length - 1 ∧
      (∀ j, s ≤ j → j ≤ dd.length - 1 → ddAt dd tr ≤ ddAt dd j) ∧
      (∀ j, s ≤ j → j < tr → ddAt dd tr < ddAt dd j) ∧
      (episodesOfDD dd cum θ).filter (fun ep => ep.start == s) =
        (if θ / 100 ≤ |ddAt dd tr| then
          [⟨s, tr, dd.length - 1, ddAt dd tr * 100, dd.length - s, cum.getD s 0,
            cum.getD tr 0⟩]
        else []) := by
  obtain ⟨hsL, hb, hneg⟩ := h
  set seg := (dd.drop s).take (dd.length - s) with hseg
  have hseglen : seg.length = dd.length - s := by
    simp only [hseg, List.length_take, List.length_drop]
    omega
  have hsegne : seg ≠ [] := by
    apply List.ne_nil_of_length_pos
    omega
  have hgetseg : ∀ k, k < dd.length - s → seg.getD k 0 = ddAt dd (s + k) := by
    intro k hk
    rw [hseg, ddAt, List.getD_eq_getElem?_getD, List.getD_eq_getElem?_getD,
      List.getElem?_take_of_lt hk, List.getElem?_drop]
  have ha := argminIdx_lt seg hsegne
  refine ⟨s + argminIdx seg, by omega, by omega, ?_, ?_, ?_⟩
  · intro j h1 h2
    have hk : j - s < dd.length - s := by omega
    have := argminIdx_min seg (j - s) (by omega)
    rw [hgetseg (argminIdx seg) (by omega), hgetseg (j - s) hk] at this
    have hj : s + (j - s) = j := by omega
    rwa [hj] at this
  · intro j h1 h2
    have hk : j - s < argminIdx seg := by omega
    have := argminIdx_first seg (j - s) hk
    rw [hgetseg (argminIdx seg) (by omega), hgetseg (j - s) (by omega)] at this
    have hj : s + (j - s) = j := by omega
    rwa [hj] at this
  · rw [episodesOfDD_eq, List.filter_append]
    have hkill : ∀ t' < dd.length, (closeTerm dd cum θ t').filter
        (fun ep => ep.start == s) = [] := by
      intro t' ht'
      by_cases hc : 0 < t' ∧ ddAt dd (t' - 1) < 0 ∧ ¬ddAt dd t' < 0
      · apply filter_closeTerm_nil
        intro heq
        obtain ⟨h0, hprev, hnotneg⟩ := hc
        have hrs := runStartAt_le dd (t' - 1)
        rw [heq] at hrs
        exact hnotneg (hneg t' ht' (by omega))
      · unfold closeTerm
        rw [if_neg hc]
        rfl
    rw [filter_emittedUpTo_nil dd cum θ _ dd.length hkill, List.nil_append]
    obtain ⟨m, hL⟩ : ∃ m, dd.length = m + 1 := ⟨dd.length - 1, by omega⟩
    have hm : ddAt dd m < 0 := hneg m (by omega) (by omega)
    have hsm : stateAt dd dd.length = some (runStartAt dd m) := by
      rw [hL, stateAt, if_pos hm]
    have hrseq : runStartAt dd m = s := by
      apply runStartAt_eq dd m s (by omega)
      · rcases hb with h0 | h1
        · exact Or.inl h0
        · exact Or.inr (not_lt.2 h1)
      · intro j h1 h2
        exact hneg j (by omega) h1
    rw [hsm, hrseq]
    show (emitEpisode dd cum θ s (dd.length - 1)).filter (fun ep => ep.start == s) = _
    have h1 : dd.length - 1 + 1 - s = dd.length - s := by omega
    have h2 : dd.length - 1 - s + 1 = dd.length - s := by omega
    unfold emitEpisode
    simp only [h1, h2, ← hseg]
    by_cases hθ : θ / 100 ≤ |ddAt dd (s + argminIdx seg)|
    · rw [if_pos hθ]
      simp [List.filter]
    · rw [if_neg hθ]
      rfl

/-- Concrete closed run: drawdown `[0, -1/2, -1/4, 0]` closes at `t = 3`. -/
theorem episodes_closed_run_witness :
    ∃ tr, 1 ≤ tr ∧ tr ≤ 3 - 1 ∧
      (∀ j, 1 ≤ j → j ≤ 3 - 1 →
        ddAt [0, -1/2, -1/4, 0] tr ≤ ddAt [0, -1/2, -1/4, 0] j) ∧
      (∀ j, 1 ≤ j → j < tr →
        ddAt [0, -1/2, -1/4, 0] tr < ddAt [0, -1/2, -1/4, 0] j) ∧
      (episodesOfDD [0, -1/2, -1/4, 0] [1, 1/2, 3/4, 1] 5).filter
          (fun ep => ep.start == 1) =
        (if (5 : ℚ) / 100 ≤ |ddAt [0, -1/2, -1/4, 0] tr| then
          [⟨1, tr, 3 - 1, ddAt [0, -1/2, -1/4, 0] tr * 100, 3 - 1,
            List.getD [1, 1/2, 3/4, 1] 1 0, List.getD [1, 1/2, 3/4, 1] tr 0⟩]
        else []) :=
  episodes_closed_run [0, -1/2, -1/4, 0] [1, 1/2, 3/4, 1] 5 1 3 (by
    refine ⟨by norm_num, by norm_num, Or.inr (by norm_num [ddAt]), ?_,
      by norm_num [ddAt]⟩
    intro j hj h1j
    interval_cases j <;> norm_num [ddAt])

/-- Concrete open run: drawdown `[0, -1/3]` is still negative at the end. -/
theorem episodes_open_run_witness :
    ∃ tr, 1 ≤ tr ∧ tr ≤ 2 - 1 ∧
      (∀ j, 1 ≤ j → j ≤ 2 - 1 → ddAt [0, -1/3] tr ≤ ddAt [0, -1/3] j) ∧
      (∀ j, 1 ≤ j → j < tr → ddAt [0, -1/3] tr < ddAt [0, -1/3] j) ∧
      (episodesOfDD [0, -1/3] [1, 2/3] 10).filter (fun ep => ep.start == 1) =
        (if (10 : ℚ) / 100 ≤ |ddAt [0, -1/3] tr| then
          [⟨1, tr, 2 - 1, ddAt [0, -1/3] tr * 100, 2 - 1,
            List.getD [1, 2/3] 1 0, List.getD [1, 2/3] tr 0⟩]
        else []) :=
  episodes_open_run [0, -1/3] [1, 2/3] 10 1 (by
    refine ⟨by norm_num, Or.inr (by norm_num [ddAt]), ?_⟩
    intro j hj h1j
    have hj1 : j = 1 := by simp at hj; omega
    subst hj1
    norm_num [ddAt])

/-! ## Crash event identification (`DrawdownAnalyzer.identify_crash_events`) -/

/-- Insert into a sorted list (ascending). -/
def insertSorted (x : ℚ) : List ℚ → List ℚ
  | [] => [x]
  | y :: ys => if x ≤ y then x :: y :: ys else y :: insertSorted x ys

/-- Ascending sort of the values of a series. -/
def sortQ : List ℚ → List ℚ
  | [] => []
  | x :: xs => insertSorted x (sortQ xs)

/-- Linear-interpolation quantile of a sorted nonempty value list
(`pandas` default interpolation): position `h = (n-1)q`, result
`v[⌊h⌋] + (h-⌊h⌋)(v[⌊h⌋+1] - v[⌊h⌋])`. -/
def quantileSorted (v : List ℚ) (q : ℚ) : ℚ :=
  let h : ℚ := ((v.length : ℚ) - 1) * q
  let i : Nat := h.floor.toNat
  v.getD i 0 + (h - (i : ℚ)) * (v.getD (i + 1) (v.getD i 0) - v.getD i 0)

/-- Embeds `Series.quantile(q)`: missing entries are dropped; all-missing gives
missing. -/
def quantileOfList (xs : List (Option ℚ)) (q : ℚ) : Option ℚ :=
  let v := sortQ (xs.filterMap id)
  if v.length = 0 then none else some (quantileSorted v q)

/-- Period returns: the raw series for `window = 1`, otherwise the rolling
compounded return `Π(1+r) - 1` over full trailing windows (missing before the
first full window). -/
def periodReturns (returns : List ℚ) (window : Nat) : List (Option ℚ) :=
  if window = 1 then returns.map some
  else (List.range returns.length).map (fun t =>
    if window ≤ t + 1 then
      some (((returns.drop (t + 1 - window)).take window).foldl
        (fun a r => a * (1 + r)) 1 - 1)
    else none)

/-- Embeds `DrawdownAnalyzer.identify_crash_events`. -/
def identify_crash_events (crashPct : ℚ) (returns : List ℚ) (window : Nat)
    (method : String) : Except String (List Bool) :=
  let period := periodReturns returns window
  if method = "historical" then
    let threshold := quantileOfList period (crashPct / 100)
    .ok (period.map (fun x =>
      match x, threshold with
      | some v, some th => decide (v < th)
      | _, _ => false))
  else if method = "rolling" then
    .ok ((List.range period.length).map (fun t =>
      match period.getD t none, quantileOfList (period.take (t + 1)) (crashPct / 100) with
      | some v, some th => decide (v < th)
      | _, _ => false))
  else .error ("Unknown method: " ++ method)

theorem periodReturns_length (returns : List ℚ) (window : Nat) :
    (periodReturns returns window).length = returns.length := by
  unfold periodReturns
  split <;> simp

/-- C4: the `historical` method flags exactly the positions whose period
return is strictly below the whole-sample `crash_percentile/100` quantile, and
the `rolling` method flags exactly the positions whose period return is
strictly below the `crash_percentile/100` quantile of the expanding
(past-and-current-only) prefix of period returns. -/
theorem identify_crash_events_spec (crashPct : ℚ) (returns : List ℚ)
    (window : Nat) (t : Nat) (ht : t < returns.length) :
    (∃ fl, identify_crash_events crashPct returns window "historical" = .ok fl ∧
      fl.length = returns.length ∧
      (fl.getD t false = true ↔ ∃ v th,
        (periodReturns returns window).getD t none = some v ∧
        quantileOfList (periodReturns returns window) (crashPct / 100) = some th ∧
        v < th)) ∧
    (∃ fl, identify_crash_events crashPct returns window "rolling" = .ok fl ∧
      fl.length = returns.length ∧
      (fl.getD t false = true ↔ ∃ v th,
        (periodReturns returns window).getD t none = some v ∧
        quantileOfList ((periodReturns returns window).take (t + 1))
          (crashPct / 100) = some th ∧
        v < th)) := by
  have hplen : (periodReturns returns window).length = returns.length :=
    periodReturns_length returns window
  have htp : t < (periodReturns returns window).length := by omega
  constructor
  · refine ⟨_, rfl, by simp [hplen], ?_⟩
    have hmap : ((periodReturns returns window).map (fun x =>
        match x, quantileOfList (periodReturns returns window) (crashPct / 100) with
        | some v, some th => decide (v < th)
        | _, _ => false)).getD t false =
        (match (periodReturns returns window).getD t none,
            quantileOfList (periodReturns returns window) (crashPct / 100) with
          | some v, some th => decide (v < th)
          | _, _ => false) := by
      rw [List.getD_eq_getElem _ _ (by simpa using htp), List.getElem_map,
        List.getD_eq_getElem _ _ htp]
    rw [hmap]
    cases hx : (periodReturns returns window).getD t none with
    | none => simp
    | some v =>
        cases hq : quantileOfList (periodReturns returns window) (crashPct / 100) with
        | none => simp
        | some th => simp
  · refine ⟨_, rfl, by simp [hplen], ?_⟩
    have hmap : ((List.range (periodReturns returns window).length).map (fun i =>
        match (periodReturns returns window).getD i none,
            quantileOfList ((periodReturns returns window).take (i + 1))
              (crashPct / 100) with
          | some v, some th => decide (v < th)
          | _, _ => false)).getD t false =
        (match (periodReturns returns window).getD t none,
            quantileOfList ((periodReturns returns window).take (t + 1))
              (crashPct / 100) with
          | some v, some th => decide (v < th)
          | _, _ => false) := by
      rw [List.getD_eq_getElem _ _ (by simpa using htp), List.getElem_map,
        List.getElem_range]
    rw [hmap]
    cases hx : (periodReturns returns window).getD t none with
    | none => simp
    | some v =>
        cases hq : quantileOfList ((periodReturns returns window).take (t + 1))
            (crashPct / 100) with
        | none => simp
        | some th => simp

/-- Concrete instance of the crash-flag characterization. -/
theorem identify_crash_events_spec_witness :
    (∃ fl, identify_crash_events 50 [0, -1/10, 1/10] 1 "historical" = .ok fl ∧
      fl.length = (([0, -1/10, 1/10] : List ℚ)).length ∧
      (fl.getD 1 false = true ↔ ∃ v th,
        (periodReturns [0, -1/10, 1/10] 1).getD 1 none = some v ∧
        quantileOfList (periodReturns [0, -1/10, 1/10] 1) (50 / 100) = some th ∧
        v < th)) ∧
    (∃ fl, identify_crash_events 50 [0, -1/10, 1/10] 1 "rolling" = .ok fl ∧
      fl.length = (([0, -1/10, 1/10] : List ℚ)).length ∧
      (fl.getD 1 false = true ↔ ∃ v th,
        (periodReturns [0, -1/10, 1/10] 1).getD 1 none = some v ∧
        quantileOfList ((periodReturns [0, -1/10, 1/10] 1).take (1 + 1))
          (50 / 100) = some th ∧
        v < th)) :=
  identify_crash_events_spec 50 [0, -1/10, 1/10] 1 1 (by norm_num)

/-- C8: any method other than `historical` or `rolling` is rejected with an
error naming the unsupported value. -/
theorem identify_crash_events_unknown (crashPct : ℚ) (returns : List ℚ)
    (window : Nat) (method : String)
    (h1 : method ≠ "historical") (h2 : method ≠ "rolling") :
    identify_crash_events crashPct returns window method =
      .error ("Unknown method: " ++ method) := by
  unfold identify_crash_events
  rw [if_neg h1, if_neg h2]

/-- Concrete instance of the unsupported-method rejection. -/
theorem identify_crash_events_unknown_witness :
    identify_crash_events 1 [0] 1 "banana" =
      .error ("Unknown method: " ++ "banana") :=
  identify_crash_events_unknown 1 [0] 1 "banana" (by decide) (by decide)

/-! ## Rolling z-score (`CrowdingIndexBuilder.compute_zscore`)

The rolling standard deviation is the square root of the rolling sample
variance; the square root itself is irrational, so the embedding carries an
abstract `sqrtFn`.  Everything proved about the z-score (definedness and the
zero-std guard) is independent of the choice of `sqrtFn`. -/

/-- The non-missing values inside the trailing window of length `window`
ending at position `t`. -/
def rollingVals (xs : List (Option ℚ)) (window t : Nat) : List ℚ :=
  ((xs.take (t + 1)).drop (t + 1 - window)).filterMap id

/-- Embeds `series.rolling(window, min_periods).mean()` at position `t`. -/
def rollingMean (xs : List (Option ℚ)) (window minp t : Nat) : Option ℚ :=
  let v := rollingVals xs window t
  if minp ≤ v.length ∧ 1 ≤ v.length then some (v.sum / (v.length : ℚ)) else none

/-- Rolling sample variance (`ddof = 1`) at position `t`; missing when fewer
than `min_periods` or fewer than two observations are available. -/
def rollingVar (xs : List (Option ℚ)) (window minp t : Nat) : Option ℚ :=
  let v := rollingVals xs window t
  if minp ≤ v.length ∧ 2 ≤ v.length then
    some ((v.map (fun x => (x - v.sum / (v.length : ℚ)) ^ 2)).sum /
      ((v.length : ℚ) - 1))
  else none

/-- Embeds `series.rolling(window, min_periods).std()` at position `t`. -/
def rollingStd (sqrtFn : ℚ → ℚ) (xs : List (Option ℚ)) (window minp t : Nat) :
    Option ℚ :=
  (rollingVar xs window minp t).map sqrtFn

/-- Embeds `CrowdingIndexBuilder.compute_zscore`: `(x - rolling_mean) /
rolling_std.replace(0, nan)`, with `min_periods` defaulting to `window // 2`. -/
def compute_zscore (sqrtFn : ℚ → ℚ) (series : List (Option ℚ)) (window : Nat)
    (minPeriods : Option Nat) : List (Option ℚ) :=
  let minp := minPeriods.getD (window / 2)
  (List.range series.length).map (fun t =>
    match series.getD t none, rollingMean series window minp t,
        rollingStd sqrtFn series window minp t with
    | some x, some m, some s => if s = 0 then none else some ((x - m) / s)
    | _, _, _ => none)

/-- C7: the z-score is total (one output per input position — the division is
guarded, never an error), and wherever the rolling standard deviation
(computed with `min_periods = window // 2`) is zero the output is missing. -/
theorem compute_zscore_spec (sqrtFn : ℚ → ℚ) (series : List (Option ℚ))
    (window : Nat) (hw : 1 ≤ window) (t : Nat) (ht : t < series.length)
    (hstd : rollingStd sqrtFn series window (window / 2) t = some 0) :
    (compute_zscore sqrtFn series window none).length = series.length ∧
      (compute_zscore sqrtFn series window none).getD t (some 0) = none := by
  constructor
  · simp [compute_zscore]
  · have hget : (compute_zscore sqrtFn series window none).getD t (some 0) =
        (match series.getD t none, rollingMean series window (window / 2) t,
            rollingStd sqrtFn series window (window / 2) t with
          | some x, some m, some s => if s = 0 then none else some ((x - m) / s)
          | _, _, _ => none) := by
      rw [compute_zscore]
      have htr : t < (List.range series.length).length := by simpa using ht
      rw [List.getD_eq_getElem _ _ (by simpa using htr), List.getElem_map,
        List.getElem_range]
      rfl
    rw [hget, hstd]
    cases hx : series.getD t none with
    | none => rfl
    | some x =>
        cases hm : rollingMean series window (window / 2) t with
        | none => rfl
        | some m => simp

/-- Concrete instance: a constant window has zero rolling std and a missing
z-score. -/
theorem compute_zscore_spec_witness :
    (compute_zscore id [some 1, some 1, some 1, some 1] 4 none).length =
        ([some 1, some 1, some 1, some 1] : List (Option ℚ)).length ∧
      (compute_zscore id [some 1, some 1, some 1, some 1] 4 none).getD 3
        (some 0) = none :=
  compute_zscore_spec id [some 1, some 1, some 1, some 1] 4 (by norm_num) 3
    (by norm_num)
    (by norm_num [rollingStd, rollingVar, rollingVals, List.filterMap_cons])

/-! ## Winsorization (`CrowdingIndexBuilder.winsorize_series`) and the
composite index (`CrowdingIndexBuilder.build_composite_index`) -/

/-- Positions of the non-missing entries (`series.dropna().index`). -/
def dropnaIdx (s : List (Option ℚ)) : List Nat :=
  (List.range s.length).filter (fun i => (s.getD i none).isSome)

/-- Stable insertion of a (value, position) pair into an ascending list. -/
def insertPair (x : ℚ × Nat) : List (ℚ × Nat) → List (ℚ × Nat)
  | [] => [x]
  | y :: ys =>
      if x.1 < y.1 ∨ (x.1 = y.1 ∧ x.2 < y.2) then x :: y :: ys
      else y :: insertPair x ys

def argsortPairs : List (ℚ × Nat) → List (ℚ × Nat)
  | [] => []
  | x :: xs => insertPair x (argsortPairs xs)

/-- Embeds `a.argsort()`: positions ordered by value (ties by position). -/
def argsortIdx (a : List ℚ) : List Nat :=
  (argsortPairs ((List.range a.length).map (fun p => (a.getD p 0, p)))).map
    Prod.snd

/-- In-place bulk assignment `a[ps] = v`. -/
def assignAt (a : List ℚ) (ps : List Nat) (v : ℚ) : List ℚ :=
  (List.range a.length).map (fun p => if p ∈ ps then v else a.getD p 0)

/-- Embeds `scipy.stats.mstats.winsorize` on a dense array with limits
`(lolim, uplim)` and the default inclusive flags: the `int(limit * n)` lowest
entries are raised to the value at sorted position `lowidx`, then the entries
at sorted positions `≥ n - int(uplim * n)` are lowered to the value at sorted
position `upidx - 1` (reading the array after the first assignment). -/
def mstatsWinsorize (lolim uplim : ℚ) (a : List ℚ) : List ℚ :=
  let n := a.length
  let idx := argsortIdx a
  let a1 :=
    if lolim ≠ 0 then
      let lowidx := (Int.floor (lolim * n)).toNat
      assignAt a (idx.take lowidx) (a.getD (idx.getD lowidx 0) 0)
    else a
  let upidx := n - (Int.floor (uplim * n)).toNat
  assignAt a1 (idx.drop upidx) (a1.getD (idx.getD (upidx - 1) 0) 0)

/-- Embeds `CrowdingIndexBuilder.winsorize_series`: winsorize the non-missing subset
at limits `(lower/100, (100-upper)/100)`, re-index it by the non-missing
positions, then `series.combine_first(winsorized)` — the original series'
non-null values take priority, nulls are filled from the winsorized values. -/
def winsorize_series (lower upper : ℚ) (s : List (Option ℚ)) :
    List (Option ℚ) :=
  let winsorized : List (Nat × ℚ) :=
    (dropnaIdx s).zip (mstatsWinsorize (lower / 100) ((100 - upper) / 100)
      (s.filterMap id))
  (List.range s.length).map (fun i =>
    match s.getD i none with
    | some v => some v
    | none => winsorized.lookup i)

theorem lookup_eq_none_of_keys {l : List (Nat × ℚ)} {i : Nat}
    (h : ∀ pr ∈ l, pr.1 ≠ i) : l.lookup i = none := by
  induction l with
  | nil => rfl
  | cons pr tl ih =>
      have h1 : pr.1 ≠ i := h pr (by simp)
      obtain ⟨k, v⟩ := pr
      have h2 : (i == k) = false := by
        rw [beq_eq_false_iff_ne]
        exact fun hik => h1 hik.symm
      simp only [List.lookup]
      rw [h2]
      exact ih (fun q hq => h q (by simp [hq]))

/-- Embeds `series.combine_first(winsorized)` keeps every non-null original value,
and the winsorized values are indexed only by non-null positions — so
`winsorize_series` returns its input unchanged. -/
theorem winsorize_series_eq_self (lower upper : ℚ) (s : List (Option ℚ)) :
    winsorize_series lower upper s = s := by
  unfold winsorize_series
  apply List.ext_getElem (by simp)
  intro i h1 h2
  rw [List.getElem_map, List.getElem_range]
  cases hx : s.getD i none with
  | some v =>
      rw [List.getD_eq_getElem _ _ h2] at hx
      simp [hx]
  | none =>
      rw [List.getD_eq_getElem _ _ h2] at hx
      rw [hx]
      apply lookup_eq_none_of_keys
      rintro ⟨k, v⟩ hkv heq
      have hk : k ∈ dropnaIdx s := (List.of_mem_zip hkv).1
      simp only [dropnaIdx, List.mem_filter] at hk
      subst heq
      rw [List.getD_eq_getElem _ _ h2, hx] at hk
      simpa using hk.2

/-- Per-row mean across columns, skipping missing values
(`DataFrame.mean(axis=1, skipna=True)`): missing when no value is present. -/
def rowMean (cols : List (List (Option ℚ))) (n : Nat) : List (Option ℚ) :=
  (List.range n).map (fun t =>
    let vals := cols.filterMap (fun c => c.getD t none)
    if vals.length = 0 then none else some (vals.sum / (vals.length : ℚ)))

/-- Embeds `CrowdingIndexBuilder.build_composite_index`: concatenate the component
columns, take the per-timestamp mean over present values, and optionally
winsorize the result. -/
def build_composite_index (lower upper : ℚ) (cols : List (List (Option ℚ)))
    (n : Nat) (winsorize : Bool) : List (Option ℚ) :=
  let composite := rowMean cols n
  if winsorize then winsorize_series lower upper composite else composite

/-- C6: at every timestamp, the composite index is the arithmetic mean of the
non-missing component values at that timestamp, and is missing when no
component value is present. -/
theorem build_composite_index_spec (lower upper : ℚ)
    (hl0 : 0 ≤ lower) (hl1 : lower ≤ 100) (hu0 : 0 ≤ upper) (hu1 : upper ≤ 100)
    (cols : List (List (Option ℚ))) (n : Nat) (w : Bool) (t : Nat) (ht : t < n) :
    ((cols.filterMap (fun c => c.getD t none)).length = 0 →
      (build_composite_index lower upper cols n w).getD t (some 0) = none) ∧
    (0 < (cols.filterMap (fun c => c.getD t none)).length →
      (build_composite_index lower upper cols n w).getD t none =
        some ((cols.filterMap (fun c => c.getD t none)).sum /
          ((cols.filterMap (fun c => c.getD t none)).length : ℚ))) := by
  have hbc : build_composite_index lower upper cols n w = rowMean cols n := by
    unfold build_composite_index
    cases w with
    | false => rfl
    | true => simp [winsorize_series_eq_self]
  have hrm : ∀ d : Option ℚ, (rowMean cols n).getD t d =
      (let vals := cols.filterMap (fun c => c.getD t none)
        if vals.length = 0 then none
        else some (vals.sum / (vals.length : ℚ))) := by
    intro d
    unfold rowMean
    rw [List.getD_eq_getElem _ _ (by simpa using ht), List.getElem_map,
      List.getElem_range]
  constructor
  · intro h0
    rw [hbc, hrm]
    simp only [h0]
    rfl
  · intro hpos
    rw [hbc, hrm]
    simp only []
    rw [if_neg (by omega)]

/-- Concrete instance of the composite-mean characterization. -/
theorem build_composite_index_spec_witness :
    ((([[some 1, none], [some 3, none]] :
        List (List (Option ℚ))).filterMap (fun c => c.getD 1 none)).length = 0 →
      (build_composite_index 1 99 [[some 1, none], [some 3, none]] 2
        true).getD 1 (some 0) = none) ∧
    (0 < (([[some 1, none], [some 3, none]] :
        List (List (Option ℚ))).filterMap (fun c => c.getD 1 none)).length →
      (build_composite_index 1 99 [[some 1, none], [some 3, none]] 2
        true).getD 1 none =
        some ((([[some 1, none], [some 3, none]] :
            List (List (Option ℚ))).filterMap (fun c => c.getD 1 none)).sum /
          (((([[some 1, none], [some 3, none]] :
            List (List (Option ℚ))).filterMap (fun c => c.getD 1 none)).length :
              ℚ)))) :=
  build_composite_index_spec 1 99 (by norm_num) (by norm_num) (by norm_num)
    (by norm_num) [[some 1, none], [some 3, none]] 2 true 1 (by norm_num)

/-- C1 (code bug): on `[1, 2, 3, 100]` with percentiles `(25, 75)` the
winsorized values are `[2, 2, 3, 3]`, but `winsorize_series` discards them —
`combine_first` prefers the original non-null values — and returns the series
unchanged, leaving `100` far above the upper cap `3`. -/
theorem winsorize_series_code_bug :
    winsorize_series 25 75 [some 1, some 2, some 3, some 100] =
        [some 1, some 2, some 3, some 100] ∧
      mstatsWinsorize (25 / 100) ((100 - 75) / 100) [1, 2, 3, 100] =
        [2, 2, 3, 3] :=
  ⟨winsorize_series_eq_self 25 75 [some 1, some 2, some 3, some 100], by
    norm_num [mstatsWinsorize, argsortIdx, argsortPairs, insertPair, assignAt,
      List.range_succ]⟩

/-! ## Proxy builders (`build_comovement_proxy`, `build_flow_attention_proxy`)

Python's `str.endswith` and `str.replace` are modelled directly over the
character data of `String` (the library versions do not evaluate inside the
kernel). -/

/-- Python `s.endswith(sfx)`. -/
def strEndsWith (s sfx : String) : Bool :=
  decide (sfx.data.length ≤ s.data.length) &&
    (s.data.drop (s.data.length - sfx.data.length) == sfx.data)

/-- Python `s.replace(pat, repl)`: replace every (non-overlapping,
left-to-right) occurrence; `fuel` bounds the scan. -/
def replaceAllAux (pat repl : List Char) : Nat → List Char → List Char
  | 0, l => l
  | _ + 1, [] => []
  | fuel + 1, c :: rest =>
      if decide (pat ≠ []) && (pat == (c :: rest).take pat.length) then
        repl ++ replaceAllAux pat repl fuel ((c :: rest).drop pat.length)
      else c :: replaceAllAux pat repl fuel rest

def strReplace (s pat repl : String) : String :=
  String.mk (replaceAllAux pat.data repl.data s.data.length s.data)

/-- A component table: its timestamp-index length and its named columns. -/
structure Table where
  nrows : Nat
  cols : List (String × List (Option ℚ))
  deriving DecidableEq, Repr

/-- All unordered pairs, first component earlier in the list
(`for i, c1 in enumerate(cols): for c2 in cols[i+1:]`). -/
def pairCombos {α : Type} : List α → List (α × α)
  | [] => []
  | c :: cs => cs.map (fun c2 => (c, c2)) ++ pairCombos cs

/-- Embeds `x.rolling(window).corr(y)` at position `t`: sample correlation over the
pairwise-complete window, `cov / sqrt(var_x * var_y)`, missing on incomplete
windows and when the denominator vanishes. -/
def rollingCorr (sqrtFn : ℚ → ℚ) (x y : List (Option ℚ)) (window t : Nat) :
    Option ℚ :=
  let prs := (((x.take (t + 1)).drop (t + 1 - window)).zip
      ((y.take (t + 1)).drop (t + 1 - window))).filterMap
    (fun pr => match pr.1, pr.2 with
      | some a, some b => some (a, b)
      | _, _ => none)
  if window ≤ prs.length ∧ 2 ≤ prs.length then
    let k : ℚ := (prs.length : ℚ)
    let mx := (prs.map Prod.fst).sum / k
    let my := (prs.map Prod.snd).sum / k
    let cov := (prs.map (fun pr => (pr.1 - mx) * (pr.2 - my))).sum / (k - 1)
    let sd := sqrtFn ((prs.map (fun pr => (pr.1 - mx) ^ 2)).sum / (k - 1) *
      ((prs.map (fun pr => (pr.2 - my) ^ 2)).sum / (k - 1)))
    if sd = 0 then none else some (cov / sd)
  else none

/-- Embeds `CrowdingIndexBuilder.build_comovement_proxy`: pairwise rolling
correlations of the `_ret` columns plus their per-timestamp average; an empty
table (with the input's index) when fewer than two `_ret` columns exist. -/
def build_comovement_proxy (sqrtFn : ℚ → ℚ) (medium : Nat) (returns : Table) :
    Table :=
  let etf_cols := returns.cols.filter (fun c => strEndsWith c.1 "_ret")
  if etf_cols.length < 2 then ⟨returns.nrows, []⟩
  else
    let prs := (pairCombos etf_cols).map (fun pr =>
      ("corr_" ++ strReplace pr.1.1 "_ret" "" ++ "_" ++
          strReplace pr.2.1 "_ret" "",
        (List.range returns.nrows).map (fun t =>
          rollingCorr sqrtFn pr.1.2 pr.2.2 medium t)))
    ⟨returns.nrows, prs ++
      (if prs.isEmpty then []
        else [("avg_corr", rowMean (prs.map Prod.snd) returns.nrows)])⟩

/-- First column with the given name (`volumes[vol_col]`). -/
def lookupCol : List (String × List (Option ℚ)) → String →
    Option (List (Option ℚ))
  | [], _ => none
  | (n, c) :: rest, name => if n = name then some c else lookupCol rest name

/-- Embeds `(1+r).rolling(w).apply(lambda x: x.prod() - 1)`: compounded return over
full, fully-observed trailing windows. -/
def rollingProdRet (xs : List (Option ℚ)) (w : Nat) : List (Option ℚ) :=
  (List.range xs.length).map (fun t =>
    if w ≤ t + 1 ∧ ((xs.take (t + 1)).drop (t + 1 - w)).all
        (fun o => o.isSome) then
      some ((((xs.take (t + 1)).drop (t + 1 - w)).filterMap id).foldl
        (fun a r => a * (1 + r)) 1 - 1)
    else none)

/-- Return run-up z-score: compounded return over the `medium` window,
z-scored over the same window. -/
def retZscore (sqrtFn : ℚ → ℚ) (mediumW : Nat) (col : List (Option ℚ)) :
    List (Option ℚ) :=
  compute_zscore sqrtFn (rollingProdRet col mediumW) mediumW none

/-- Crash-frequency z-score: count of days below the whole-sample 5th
percentile within a rolling `short` window, z-scored over the same window. -/
def crashFreqZscore (sqrtFn : ℚ → ℚ) (shortW : Nat) (col : List (Option ℚ)) :
    List (Option ℚ) :=
  let threshold := quantileOfList col (5 / 100)
  let crash_days : List ℚ := col.map (fun o =>
    match o, threshold with
    | some v, some th => if v < th then 1 else 0
    | _, _ => 0)
  let crash_freq : List (Option ℚ) := (List.range col.length).map (fun t =>
    if shortW ≤ t + 1 then
      some (((crash_days.take (t + 1)).drop (t + 1 - shortW)).sum)
    else none)
  compute_zscore sqrtFn crash_freq shortW none

/-- The per-instrument loop of `build_flow_attention_proxy`: for each `_ret`
column, the volume z-score (only when the matching `_vol` column exists),
the return run-up z-score and the crash-frequency z-score. -/
def flowComponents (sqrtFn : ℚ → ℚ) (shortW mediumW : Nat)
    (vcols : List (String × List (Option ℚ))) :
    List (String × List (Option ℚ)) → List (String × List (Option ℚ))
  | [] => []
  | (name, col) :: rest =>
      (if strEndsWith name "_ret" then
        (match lookupCol vcols (strReplace name "_ret" "" ++ "_vol") with
          | some vcol => [(strReplace name "_ret" "" ++ "_vol_zscore",
              compute_zscore sqrtFn vcol shortW none)]
          | none => []) ++
        [(strReplace name "_ret" "" ++ "_ret_zscore",
            retZscore sqrtFn mediumW col),
          (strReplace name "_ret" "" ++ "_crash_freq",
            crashFreqZscore sqrtFn shortW col)]
      else []) ++ flowComponents sqrtFn shortW mediumW vcols rest

/-- Embeds `CrowdingIndexBuilder.build_flow_attention_proxy`. -/
def build_flow_attention_proxy (sqrtFn : ℚ → ℚ) (shortW mediumW : Nat)
    (returns volumes : Table) : Table :=
  ⟨returns.nrows, flowComponents sqrtFn shortW mediumW volumes.cols returns.cols⟩

/-- Log events `(level, message)` emitted by the per-instrument loop of
`build_flow_attention_proxy`, mirrored over the same branch structure as
`flowComponents`: the `if vol_col in volumes.columns:` guard has no `else`
branch and the loop body contains no `logger.warning` (or any other logging
call), so every branch — in particular an absent volume column — contributes
no event. -/
def flowLoopLogs (vcols : List (String × List (Option ℚ))) :
    List (String × List (Option ℚ)) → List (String × String)
  | [] => []
  | (name, _) :: rest =>
      (if strEndsWith name "_ret" then
        match lookupCol vcols (strReplace name "_ret" "" ++ "_vol") with
        | some _ => []
        | none => []
      else []) ++ flowLoopLogs vcols rest

/-- The complete logging side channel of `build_flow_attention_proxy`: a
`logger.info` line on entry, the (empty) per-instrument loop events, and a
`logger.info` line on exit — the function contains no `logger.warning`. -/
def build_flow_attention_logs (returns volumes : Table) :
    List (String × String) :=
  ("info", "Building flow-attention crowding proxy...") ::
    (flowLoopLogs volumes.cols returns.cols ++
      [("info", "Flow-attention proxy created")])

theorem flowLoopLogs_eq_nil (vcols : List (String × List (Option ℚ))) :
    ∀ rlist, flowLoopLogs vcols rlist = [] := by
  intro rlist
  induction rlist with
  | nil => rfl
  | cons hd rest ih =>
      obtain ⟨n, c⟩ := hd
      rw [flowLoopLogs, ih, List.append_nil]
      by_cases h : strEndsWith n "_ret" = true
      · rw [if_pos h]
        cases lookupCol vcols (strReplace n "_ret" "" ++ "_vol") <;> rfl
      · rw [if_neg h]

/-- C9: with fewer than two `_ret` columns the co-movement proxy is the empty
component table on the input's index (the function is total — no exception). -/
theorem build_comovement_proxy_single (sqrtFn : ℚ → ℚ) (medium : Nat)
    (returns : Table)
    (h : (returns.cols.filter (fun c => strEndsWith c.1 "_ret")).length < 2) :
    build_comovement_proxy sqrtFn medium returns = ⟨returns.nrows, []⟩ := by
  unfold build_comovement_proxy
  simp only []
  rw [if_pos h]

/-- Concrete instance: one `_ret` column yields the empty table. -/
theorem build_comovement_proxy_single_witness :
    build_comovement_proxy id 126 ⟨5, [("A_ret", [some 1])]⟩ = ⟨5, []⟩ :=
  build_comovement_proxy_single id 126 ⟨5, [("A_ret", [some 1])]⟩ (by decide)

theorem string_append_right_inj (a b s1 s2 : String)
    (hlen : s1.data.length = s2.data.length) (h : a ++ s1 = b ++ s2) :
    a = b ∧ s1 = s2 := by
  have hd : a.data ++ s1.data = b.data ++ s2.data := congrArg String.data h
  have := List.append_inj' hd hlen
  exact ⟨String.ext this.1, String.ext this.2⟩

theorem flowComponents_mem (sqrtFn : ℚ → ℚ) (shortW mediumW : Nat)
    (vcols : List (String × List (Option ℚ))) :
    ∀ (rlist : List (String × List (Option ℚ))) (name : String)
      (col : List (Option ℚ)), (name, col) ∈ rlist →
      strEndsWith name "_ret" = true →
      ((strReplace name "_ret" "" ++ "_ret_zscore") ∈
          (flowComponents sqrtFn shortW mediumW vcols rlist).map Prod.fst ∧
        (strReplace name "_ret" "" ++ "_crash_freq") ∈
          (flowComponents sqrtFn shortW mediumW vcols rlist).map Prod.fst ∧
        ∀ vcol, lookupCol vcols (strReplace name "_ret" "" ++ "_vol") =
            some vcol →
          (strReplace name "_ret" "" ++ "_vol_zscore") ∈
            (flowComponents sqrtFn shortW mediumW vcols rlist).map Prod.fst) := by
  intro rlist
  induction rlist with
  | nil => intro name col hmem; simp at hmem
  | cons hd rest ih =>
      intro name col hmem hret
      obtain ⟨n, c⟩ := hd
      rw [flowComponents, List.map_append]
      rcases List.mem_cons.1 hmem with heq | hrest
      · have hn : n = name := (Prod.mk.injEq _ _ _ _ ▸ heq.symm).1
        subst hn
        rw [if_pos hret]
        refine ⟨List.mem_append_left _ ?_, List.mem_append_left _ ?_, ?_⟩
        · rw [List.map_append]
          apply List.mem_append_right
          simp
        · rw [List.map_append]
          apply List.mem_append_right
          simp
        · intro vcol hvc
          rw [hvc, List.map_append]
          apply List.mem_append_left
          apply List.mem_append_left
          simp
      · have := ih name col hrest hret
        exact ⟨List.mem_append_right _ this.1, List.mem_append_right _ this.2.1,
          fun vcol hvc => List.mem_append_right _ (this.2.2 vcol hvc)⟩

theorem flowComponents_names (sqrtFn : ℚ → ℚ) (shortW mediumW : Nat)
    (vcols : List (String × List (Option ℚ))) :
    ∀ (rlist : List (String × List (Option ℚ))) (nm : String),
      nm ∈ (flowComponents sqrtFn shortW mediumW vcols rlist).map Prod.fst →
      ∃ name, (∃ col, (name, col) ∈ rlist) ∧ strEndsWith name "_ret" = true ∧
        ((nm = strReplace name "_ret" "" ++ "_vol_zscore" ∧
            lookupCol vcols (strReplace name "_ret" "" ++ "_vol") ≠ none) ∨
          nm = strReplace name "_ret" "" ++ "_ret_zscore" ∨
          nm = strReplace name "_ret" "" ++ "_crash_freq") := by
  intro rlist
  induction rlist with
  | nil => intro nm hnm; simp [flowComponents] at hnm
  | cons hd rest ih =>
      intro nm hnm
      obtain ⟨n, c⟩ := hd
      rw [flowComponents, List.map_append] at hnm
      rcases List.mem_append.1 hnm with hblk | hrest
      · by_cases hret : strEndsWith n "_ret" = true
        · rw [if_pos hret, List.map_append] at hblk
          refine ⟨n, ⟨c, by simp⟩, hret, ?_⟩
          rcases List.mem_append.1 hblk with hvolpart | htwo
          · cases hvc : lookupCol vcols (strReplace n "_ret" "" ++ "_vol") with
            | none => rw [hvc] at hvolpart; simp at hvolpart
            | some vcol =>
                rw [hvc] at hvolpart
                simp at hvolpart
                exact Or.inl ⟨hvolpart, by simp [hvc]⟩
          · simp at htwo
            rcases htwo with h1 | h2
            · exact Or.inr (Or.inl h1)
            · exact Or.inr (Or.inr h2)
        · rw [if_neg hret] at hblk
          simp at hblk
      · obtain ⟨name, ⟨col, hc⟩, hr, hcs⟩ := ih nm hrest
        exact ⟨name, ⟨col, by simp [hc]⟩, hr, hcs⟩

/-- C10 (amended): for an instrument whose matching `_vol` column is absent,
only the volume z-score component is skipped — its run-up and crash-frequency
components are still produced, no `_vol_zscore` column for it appears, and
every other `_ret` instrument still gets all of its components; the skip is
silent: the builder emits no warning-level log event. -/
theorem flow_attention_missing_vol (sqrtFn : ℚ → ℚ) (shortW mediumW : Nat)
    (returns volumes : Table) (name : String) (col : List (Option ℚ))
    (hmem : (name, col) ∈ returns.cols)
    (hret : strEndsWith name "_ret" = true)
    (hvol : lookupCol volumes.cols (strReplace name "_ret" "" ++ "_vol") = none) :
    ((strReplace name "_ret" "" ++ "_ret_zscore") ∈
        (build_flow_attention_proxy sqrtFn shortW mediumW returns
          volumes).cols.map Prod.fst ∧
      (strReplace name "_ret" "" ++ "_crash_freq") ∈
        (build_flow_attention_proxy sqrtFn shortW mediumW returns
          volumes).cols.map Prod.fst ∧
      (strReplace name "_ret" "" ++ "_vol_zscore") ∉
        (build_flow_attention_proxy sqrtFn shortW mediumW returns
          volumes).cols.map Prod.fst) ∧
    (∀ name2 col2, (name2, col2) ∈ returns.cols →
      strEndsWith name2 "_ret" = true →
      ((strReplace name2 "_ret" "" ++ "_ret_zscore") ∈
          (build_flow_attention_proxy sqrtFn shortW mediumW returns
            volumes).cols.map Prod.fst ∧
        (strReplace name2 "_ret" "" ++ "_crash_freq") ∈
          (build_flow_attention_proxy sqrtFn shortW mediumW returns
            volumes).cols.map Prod.fst ∧
        ∀ vcol, lookupCol volumes.cols (strReplace name2 "_ret" "" ++ "_vol") =
            some vcol →
          (strReplace name2 "_ret" "" ++ "_vol_zscore") ∈
            (build_flow_attention_proxy sqrtFn shortW mediumW returns
              volumes).cols.map Prod.fst)) ∧
    (build_flow_attention_logs returns volumes).filter
      (fun ev => ev.1 == "warning") = [] := by
  have hmain := flowComponents_mem sqrtFn shortW mediumW volumes.cols
    returns.cols name col hmem hret
  refine ⟨⟨hmain.1, hmain.2.1, ?_⟩, ?_, ?_⟩
  · intro hin
    obtain ⟨name2, ⟨col2, _⟩, _, hcs⟩ :=
      flowComponents_names sqrtFn shortW mediumW volumes.cols returns.cols _ hin
    rcases hcs with ⟨heq, hlk⟩ | heq | heq
    · obtain ⟨ht, _⟩ := string_append_right_inj _ _ _ _ (by decide) heq
      rw [← ht] at hlk
      exact hlk hvol
    · obtain ⟨_, hsfx⟩ := string_append_right_inj _ _ _ _ (by decide) heq
      exact absurd hsfx (by decide)
    · obtain ⟨_, hsfx⟩ := string_append_right_inj _ _ _ _ (by decide) heq
      exact absurd hsfx (by decide)
  · intro name2 col2 hmem2 hret2
    exact flowComponents_mem sqrtFn shortW mediumW volumes.cols returns.cols
      name2 col2 hmem2 hret2
  · unfold build_flow_attention_logs
    rw [flowLoopLogs_eq_nil]
    decide

/-- Concrete instance: `A_ret` has no `A_vol`, `B_ret` has `B_vol`. -/
theorem flow_attention_missing_vol_witness :
    ((strReplace "A_ret" "_ret" "" ++ "_ret_zscore") ∈
        (build_flow_attention_proxy id 63 126 ⟨1, [("A_ret", [some 1]),
          ("B_ret", [some 1])]⟩ ⟨1, [("B_vol", [some 2])]⟩).cols.map Prod.fst ∧
      (strReplace "A_ret" "_ret" "" ++ "_crash_freq") ∈
        (build_flow_attention_proxy id 63 126 ⟨1, [("A_ret", [some 1]),
          ("B_ret", [some 1])]⟩ ⟨1, [("B_vol", [some 2])]⟩).cols.map Prod.fst ∧
      (strReplace "A_ret" "_ret" "" ++ "_vol_zscore") ∉
        (build_flow_attention_proxy id 63 126 ⟨1, [("A_ret", [some 1]),
          ("B_ret", [some 1])]⟩ ⟨1, [("B_vol", [some 2])]⟩).cols.map Prod.fst) ∧
    (∀ name2 col2, (name2, col2) ∈ ([("A_ret", [some 1]), ("B_ret", [some 1])] :
        List (String × List (Option ℚ))) →
      strEndsWith name2 "_ret" = true →
      ((strReplace name2 "_ret" "" ++ "_ret_zscore") ∈
          (build_flow_attention_proxy id 63 126 ⟨1, [("A_ret", [some 1]),
            ("B_ret", [some 1])]⟩ ⟨1, [("B_vol", [some 2])]⟩).cols.map Prod.fst ∧
        (strReplace name2 "_ret" "" ++ "_crash_freq") ∈
          (build_flow_attention_proxy id 63 126 ⟨1, [("A_ret", [some 1]),
            ("B_ret", [some 1])]⟩ ⟨1, [("B_vol", [some 2])]⟩).cols.map Prod.fst ∧
        ∀ vcol, lookupCol [("B_vol", [some 2])]
            (strReplace name2 "_ret" "" ++ "_vol") = some vcol →
          (strReplace name2 "_ret" "" ++ "_vol_zscore") ∈
            (build_flow_attention_proxy id 63 126 ⟨1, [("A_ret", [some 1]),
              ("B_ret", [some 1])]⟩ ⟨1, [("B_vol", [some 2])]⟩).cols.map
                Prod.fst)) ∧
    (build_flow_attention_logs ⟨1, [("A_ret", [some 1]), ("B_ret", [some 1])]⟩
      ⟨1, [("B_vol", [some 2])]⟩).filter (fun ev => ev.1 == "warning") = [] :=
  flow_attention_missing_vol id 63 126
    ⟨1, [("A_ret", [some 1]), ("B_ret", [some 1])]⟩ ⟨1, [("B_vol", [some 2])]⟩
    "A_ret" [some 1] (by decide) (by decide) (by decide)

/-- C10 as stated is false on the code: with instrument `A_ret` present and
its `A_vol` column absent, the flow-attention builder emits no warning-level
log event at all — the `if vol_col in volumes.columns:` guard has no `else`
branch, so the skip is silent. -/
theorem flow_attention_no_warning_counterexample :
    lookupCol [("B_vol", [some 2])] (strReplace "A_ret" "_ret" "" ++ "_vol") =
        none ∧
      (build_flow_attention_logs ⟨1, [("A_ret", [some 1]),
          ("B_ret", [some 1])]⟩ ⟨1, [("B_vol", [some 2])]⟩).filter
        (fun ev => ev.1 == "warning") = [] := by
  constructor
  · decide
  · unfold build_flow_attention_logs
    rw [flowLoopLogs_eq_nil]
    decide

end FactorCrowding
